import Mathlib

/-!
Verification development for the crossword CSP solver in
src/Crossword/generate.py (class CrosswordCreator).

The solver's mutable state, `self.domains`, is a Python dict mapping each
variable to a mutable set of candidate words.  We embed it as a function
`Domains := Var → Finset Word` and thread it explicitly: every method that
mutates `self.domains` in place is embedded as a function returning the
updated `Domains` value.

The external Puzzle Structure collaborator (crossword.py, not part of the
sources) is modelled from the spec as the read-only record `Crossword`
below.
-/

/-- Words are Python strings; we embed them as lists of characters. -/
abbrev Word := List Char

/-- Character access word[i].  Python raises IndexError out of range; the
solver only ever indexes at overlap positions, which the spec requires the
Puzzle Structure collaborator to keep in range, so the default value is
never relevant on well-formed inputs. -/
def charAt (w : Word) (i : Nat) : Char := w.getD i ' '

/-- A slot of the grid (class Variable of crossword.py): start cell,
orientation and length, identity by value. -/
structure Var where
  row : Nat
  col : Nat
  down : Bool
  length : Nat
deriving DecidableEq, Repr

/-- Modelled from the spec: the read-only interface of the Puzzle Structure
collaborator (crossword.py, which is not among the sources).  Section 6 of
the spec: a read-only set of slots, a read-only overlap lookup giving for
two slots either no relation or a pair of character indices, and a
read-only vocabulary seeding every slot's initial domain.  `overlaps x y =
some (i, j)` means character i of x's word must equal character j of y's
word.  Well-formedness facts the spec attributes to the collaborator
(symmetry of the relation, no self overlap) are taken as hypotheses of the
theorems that need them rather than baked into the structure. -/
structure Crossword where
  /-- self.crossword.variables (the name itself is reserved in Lean). -/
  vars : List Var
  words : Finset Word
  overlaps : Var → Var → Option (Nat × Nat)

/-- Modelled from the spec: the read-only neighbor lookup of the Puzzle
Structure collaborator — given a slot, the set of other slots with which it
has an overlap relation (crossword.py consults overlaps[v, var]).  Python
returns a set; the embedding fixes the enumeration order of
cw.variables. -/
def neighbors (cw : Crossword) (v : Var) : List Var :=
  cw.vars.filter (fun u => decide (u ≠ v) && (cw.overlaps u v).isSome)

/-- The per-slot Domain Store, self.domains. -/
abbrev Domains := Var → Finset Word

/-- A (partial) assignment: a Python dict from variables to words,
embedded as an insertion-ordered association list. -/
abbrev Assignment := List (Var × Word)

/-- Dict lookup assignment[v] (none when v is not a key). -/
def lookup : Assignment → Var → Option Word
  | [], _ => none
  | (k, w) :: rest, v => if k = v then some w else lookup rest v

/-- Dict write assignment[v] = w: overwrites in place when the key exists,
appends otherwise (Python dicts keep insertion order). -/
def dictInsert : Assignment → Var → Word → Assignment
  | [], v, w => [(v, w)]
  | (k, w') :: rest, v, w =>
    if k = v then (v, w) :: rest else (k, w') :: dictInsert rest v w

/-- Python truthiness of the backtrack result (line 303, if res:): None and
the empty dict are falsy, a non-empty dict is truthy. -/
def truthy : Option Assignment → Bool
  | none => false
  | some a => !a.isEmpty

/-- CrosswordCreator.enforce_node_consistency (lines 96-110): every
variable's domain is replaced by the subset of words whose length equals
the variable's length.  The Python loop runs over self.crossword.variables
and the dict has exactly those keys; the embedding leaves the (nonexistent)
other entries untouched. -/
def enforce_node_consistency (cw : Crossword) (d : Domains) : Domains :=
  fun v =>
    if v ∈ cw.vars then (d v).filter (fun w => v.length = w.length)
    else d v

/-- CrosswordCreator.revise (lines 112-138): when x and y overlap at
(i, j), collect every word of domain(x) with no matching partner in
domain(y) into to_remove, report whether that set is non-empty, and remove
it from domain(x); with no overlap, report False and change nothing.
Python mutates the set self.domains[x] in place; the embedding returns the
updated store. -/
def revise (cw : Crossword) (d : Domains) (x y : Var) : Bool × Domains :=
  match cw.overlaps x y with
  | none => (false, d)
  | some (i, j) =>
    let toRemove := (d x).filter (fun w => ∀ v ∈ d y, charAt w i ≠ charAt v j)
    (decide toRemove.Nonempty, Function.update d x (d x \ toRemove))

/-- Modelled from the spec: in crossword.py the overlaps dict has an entry
for every ordered pair of distinct slots.  Lines 151-155 of generate.py
build the default worklist as the keys whose overlap is not None, in dict
iteration order; the embedding enumerates ordered pairs of cw.vars. -/
def allArcs (cw : Crossword) : List (Var × Var) :=
  cw.vars.flatMap (fun x =>
    cw.vars.filterMap (fun y =>
      if x ≠ y ∧ (cw.overlaps x y).isSome then some (x, y) else none))

/-- Variables whose domain size bounds the running time of ac3 from a given
worklist: the puzzle variables together with the first components of the
pending arcs (termination measure only; not part of the source). -/
def indexSet (cw : Crossword) (arcs : List (Var × Var)) : Finset Var :=
  cw.vars.toFinset ∪ (arcs.map Prod.fst).toFinset

/-- Total number of words over a finite set of slots (termination measure
only; not part of the source). -/
def sumCard (s : Finset Var) (d : Domains) : Nat :=
  s.sum (fun v => (d v).card)

/-- CrosswordCreator.ac3 (lines 140-169) with an explicit worklist (the
arcs=None default is allArcs, see ac3Full).  Pops the front arc (x, y);
when revise reports a change it fails immediately if domain(x) emptied and
otherwise appends (z, x) for every neighbor z of x other than y to the end
of the worklist; returns True when the worklist drains.  The redundant
Python guard if len(neighbors) >= 1 only skips an empty loop. -/
def ac3 (cw : Crossword) (d : Domains) (arcs : List (Var × Var)) :
    Bool × Domains :=
  match arcs with
  | [] => (true, d)
  | (x, y) :: rest =>
    if hch : (revise cw d x y).1 then
      if (revise cw d x y).2 x = ∅ then (false, (revise cw d x y).2)
      else
        ac3 cw (revise cw d x y).2
          (rest ++ ((neighbors cw x).filter (fun z => decide (z ≠ y))).map
            (fun z => (z, x)))
    else ac3 cw d rest
termination_by (sumCard (indexSet cw arcs) d, arcs.length)
decreasing_by
  · -- a revision removed at least one word from domain(x): the total word
    -- count over the index set strictly drops.
    apply Prod.Lex.left
    have hsub2 : ∀ v, (revise cw d x y).2 v ⊆ d v := by
      intro v
      unfold revise
      rcases cw.overlaps x y with _ | ⟨i, j⟩
      · exact fun _ h => h
      · simp only
        by_cases hv : v = x
        · subst hv; rw [Function.update_same]; exact Finset.sdiff_subset
        · rw [Function.update_noteq hv]
    have hlt_x : ((revise cw d x y).2 x).card < (d x).card := by
      rcases hov : cw.overlaps x y with _ | ⟨i, j⟩
      · exfalso; simp [revise, hov] at hch
      · have h2 := hch
        simp only [revise, hov, decide_eq_true_eq] at h2
        simp only [revise, hov, Function.update_same]
        have hRsub : ((d x).filter
            (fun w => ∀ v ∈ d y, charAt w i ≠ charAt v j)) ⊆ d x :=
          Finset.filter_subset _ _
        rw [Finset.card_sdiff hRsub]
        have h1 : 0 < ((d x).filter
            (fun w => ∀ v ∈ d y, charAt w i ≠ charAt v j)).card :=
          Finset.card_pos.mpr h2
        have h3 : ((d x).filter
            (fun w => ∀ v ∈ d y, charAt w i ≠ charAt v j)).card ≤
            (d x).card := Finset.card_le_card hRsub
        omega
    have hxI : x ∈ indexSet cw ((x, y) :: rest) := by
      simp [indexSet]
    have hsubI : indexSet cw
        (rest ++ ((neighbors cw x).filter (fun z => decide (z ≠ y))).map
          (fun z => (z, x))) ⊆ indexSet cw ((x, y) :: rest) := by
      intro v hv
      simp only [indexSet, Finset.mem_union, List.mem_toFinset] at hv ⊢
      rcases hv with hv | hv
      · exact Or.inl hv
      · rw [List.map_append, List.mem_append] at hv
        rcases hv with hv | hv
        · refine Or.inr ?_
          rw [List.map_cons]
          exact List.mem_cons_of_mem _ hv
        · rw [List.map_map, List.mem_map] at hv
          obtain ⟨z, hz, hzv⟩ := hv
          simp only [Function.comp_apply] at hzv
          subst hzv
          have hz1 : z ∈ neighbors cw x := (List.mem_filter.1 hz).1
          have hz2 : z ∈ cw.vars := by
            simp only [neighbors] at hz1
            exact (List.mem_filter.1 hz1).1
          exact Or.inl hz2
    calc sumCard (indexSet cw
          (rest ++ ((neighbors cw x).filter (fun z => decide (z ≠ y))).map
            (fun z => (z, x)))) (revise cw d x y).2
        ≤ sumCard (indexSet cw ((x, y) :: rest)) (revise cw d x y).2 :=
          Finset.sum_le_sum_of_subset hsubI
      _ < sumCard (indexSet cw ((x, y) :: rest)) d := by
          apply Finset.sum_lt_sum
          · exact fun v _ => Finset.card_le_card (hsub2 v)
          · exact ⟨x, hxI, hlt_x⟩
  · -- no change: the index set cannot grow and the worklist got shorter.
    have hsubI : indexSet cw rest ⊆ indexSet cw ((x, y) :: rest) := by
      intro v hv
      simp only [indexSet, Finset.mem_union, List.mem_toFinset,
        List.map_cons, List.mem_cons] at hv ⊢
      tauto
    have hle : sumCard (indexSet cw rest) d ≤
        sumCard (indexSet cw ((x, y) :: rest)) d :=
      Finset.sum_le_sum_of_subset hsubI
    rcases lt_or_eq_of_le hle with h | h
    · exact Prod.Lex.left _ _ h
    · rw [h]
      exact Prod.Lex.right _ (by simp)


/-- CrosswordCreator.assignment_complete (lines 171-180): every puzzle
variable must be a key of the assignment. -/
def assignment_complete (cw : Crossword) (a : Assignment) : Bool :=
  cw.vars.all (fun v => (lookup a v).isSome)

/-- CrosswordCreator.consistent (lines 182-204): for every assigned
variable the word length must match, every assigned neighbor must agree at
the overlap indices, and finally all assigned words must be pairwise
distinct (the Python set-cardinality comparison).  The none overlap branch
is unreachable for a well-formed Puzzle Structure (a neighbor always has an
overlap entry in the symmetric direction); Python would raise there. -/
def consistent (cw : Crossword) (a : Assignment) : Bool :=
  (a.all (fun p =>
    (decide (p.1.length = p.2.length)) &&
    (neighbors cw p.1).all (fun nb =>
      match lookup a nb with
      | none => true
      | some nw =>
        match cw.overlaps p.1 nb with
        | some (i, j) => decide (charAt p.2 i = charAt nw j)
        | none => true))) &&
  decide ((a.map Prod.snd).Nodup)

/-- Number of values that candidate word w for var would rule out in the
domain of one unassigned neighbor nb (inner loop of lines 220-227).  The
none overlap branch is unreachable for neighbors (Python would raise). -/
def eliminatedAt (cw : Crossword) (d : Domains) (var : Var) (w : Word)
    (nb : Var) : Nat :=
  match cw.overlaps var nb with
  | some (i, j) => ((d nb).filter (fun v => charAt w i ≠ charAt v j)).card
  | none => 0

/-- Total elimination count of candidate w: summed over the unassigned
neighbors of var (lines 216-228). -/
def eliminationCount (cw : Crossword) (d : Domains) (a : Assignment)
    (var : Var) (w : Word) : Nat :=
  (((neighbors cw var).filter (fun nb => (lookup a nb).isNone)).map
    (eliminatedAt cw d var w)).sum

/-- Python string comparison (lexicographic by code point), used because
line 231 sorts (count, word) tuples, comparing words on tied counts. -/
def wordLe : Word → Word → Bool
  | [], _ => true
  | _ :: _, [] => false
  | c :: cs, c' :: cs' => if c = c' then wordLe cs cs' else decide (c < c')

/-- Python tuple comparison on (elimination count, word) pairs. -/
def pairLe (p q : Nat × Word) : Bool :=
  if p.1 = q.1 then wordLe p.2 q.2 else decide (p.1 < q.1)

/-- CrosswordCreator.order_domain_values (lines 206-232): pair every word
of domain(var) with its elimination count and sort ascending by the
(count, word) tuple, exactly like sorted(zip(domain_values, domain_list)).
Python iterates the domain set in an unspecified order; because the words
are distinct the tuple order is total, so the sorted result does not depend
on that order, and the embedding enumerates the Finset through toList. -/
def order_domain_values (cw : Crossword) (d : Domains) (var : Var)
    (a : Assignment) : List Word :=
  ((((d var).sort (· ≤ ·)).map
      (fun w => (eliminationCount cw d a var w, w))).insertionSort
    (fun p q => pairLe p q = true)).map Prod.snd

/-- CrosswordCreator.select_unassigned_variable (lines 234-265): build the
parallel lists of unassigned variables, their domain sizes (MRV) and their
degrees; take the minimum MRV; when it is attained more than once, look up
the maximum degree among the tied variables with degree.index — note that
the Python code searches that maximum in the full degree list, not in the
tied sublist.  Python's min on an empty list raises; the embedding returns
none there (backtrack only calls this with at least one unassigned
variable). -/
def select_unassigned_variable (cw : Crossword) (d : Domains)
    (a : Assignment) : Option Var :=
  let vs := cw.vars.filter (fun v => (lookup a v).isNone)
  let mrv := vs.map (fun v => (d v).card)
  let deg := vs.map (fun v => (neighbors cw v).length)
  match mrv.minimum? with
  | none => none
  | some mn =>
    if mrv.count mn > 1 then
      let tied := (mrv.enum.filter (fun p => p.2 = mn)).map Prod.fst
      let tiedDeg := tied.map (fun i => deg.getD i 0)
      match tiedDeg.maximum? with
      | none => none
      | some mx => vs.get? (deg.indexOf mx)
    else vs.get? (mrv.indexOf mn)

/-- Number of puzzle variables not yet assigned (termination measure only;
not part of the source). -/
def UCount (cw : Crossword) (a : Assignment) : Nat :=
  (cw.vars.filter (fun v => (lookup a v).isNone)).length

/-- Number of puzzle variables other than var not yet assigned (termination
measure only; not part of the source). -/
def UCountExcl (cw : Crossword) (a : Assignment) (var : Var) : Nat :=
  (cw.vars.filter (fun u => decide (u ≠ var) && (lookup a u).isNone)).length

/-- Dict lookup after a dict write (termination helper fact, also used by
the theorems below). -/
def lookup_dictInsert : ∀ (a : Assignment) (k : Var) (w : Word) (u : Var),
    lookup (dictInsert a k w) u = if k = u then some w else lookup a u := by
  intro a k w u
  induction a with
  | nil =>
    simp [dictInsert, lookup]
  | cons p as ih =>
    obtain ⟨k', w'⟩ := p
    simp only [dictInsert]
    by_cases hk : k' = k
    · subst hk
      simp only [if_pos rfl, lookup]
      by_cases h : k' = u <;> simp [h]
    · simp only [if_neg hk, lookup]
      by_cases h1 : k' = u
      · subst h1
        have h2 : ¬ (k = k') := fun he => hk he.symm
        simp [lookup, ih, h2]
      · simp [lookup, ih, h1]

/-- The variable returned by select_unassigned_variable is always one of
the unassigned puzzle variables: both return paths index into the list vs
of unassigned variables (termination helper fact, also used by the theorems
below).  Note this holds despite the degree.index slip at line 262 — the
index is still an index into the parallel lists. -/
def select_mem : ∀ (cw : Crossword) (d : Domains) (a : Assignment)
    (var : Var), select_unassigned_variable cw d a = some var →
    var ∈ cw.vars.filter (fun v => (lookup a v).isNone) := by
  intro cw d a var hsel
  simp only [select_unassigned_variable] at hsel
  split at hsel
  · exact absurd hsel (by simp)
  · split at hsel
    · split at hsel
      · exact absurd hsel (by simp)
      · exact List.get?_mem hsel
    · exact List.get?_mem hsel

mutual

/-- CrosswordCreator.backtrack (lines 267-308): return the assignment when
it is complete, otherwise pick an unassigned variable and try its candidate
words in least-constraining order.  Python's min would raise if no
unassigned variable existed; that is unreachable behind the completeness
check, and the embedding returns (none, d) there. -/
def backtrack (cw : Crossword) (a : Assignment) (d : Domains) :
    Option Assignment × Domains :=
  if assignment_complete cw a then (some a, d)
  else
    match hsel : select_unassigned_variable cw d a with
    | none => (none, d)
    | some var => tryValues cw var (order_domain_values cw d var a) a d
termination_by (UCount cw a, 1, 0)
decreasing_by
  have hvar : var ∈ cw.vars.filter (fun v => (lookup a v).isNone) :=
    select_mem cw d a var hsel
  have hlt : UCountExcl cw a var < UCount cw a := by
    unfold UCountExcl UCount
    rw [← List.filter_filter]
    apply List.length_filter_lt_length_iff_exists.mpr
    exact ⟨var, hvar, by simp⟩
  rcases Nat.lt_or_ge (UCountExcl cw a var + 1) (UCount cw a) with h | h
  · exact Prod.Lex.left _ _ h
  · have heq : UCountExcl cw a var + 1 = UCount cw a := by omega
    rw [heq]
    exact Prod.Lex.right _ (Prod.Lex.left _ _ (by omega))

/-- The candidate loop of backtrack (lines 282-307).  For each word w:
extend the assignment; skip w if the extension is inconsistent; otherwise
run ac3 on the arcs (neighbor, var) — Maintaining Arc Consistency — and on
propagation failure move on, on success recurse and on a truthy result
propagate it upward.  Lines 288-291 snapshot the Domain Store with
domain_old[var2] = self.domains[var2], which copies per-variable references
to the same mutable set objects that revise later mutates in place; the
restore loop at lines 305-307 therefore rebinds self.domains to those
already-mutated sets and never undoes anything.  The embedding consequently
threads the post-propagation Domain Store unchanged through every failure
path, exactly as the Python state evolves. -/
def tryValues (cw : Crossword) (var : Var) (vals : List Word)
    (a : Assignment) (d : Domains) : Option Assignment × Domains :=
  match vals with
  | [] => (none, d)
  | w :: rest =>
    let a2 := dictInsert a var w
    if consistent cw a2 then
      let r := ac3 cw d ((neighbors cw var).map (fun nb => (nb, var)))
      if r.1 then
        let res := backtrack cw a2 r.2
        if truthy res.1 then res
        else tryValues cw var rest a res.2
      else tryValues cw var rest a r.2
    else tryValues cw var rest a d
termination_by (UCountExcl cw a var + 1, 0, vals.length)
decreasing_by
  · -- the recursive backtrack call: one more variable is assigned.
    have hEq : UCount cw (dictInsert a var w) = UCountExcl cw a var := by
      unfold UCount UCountExcl
      congr 1
      apply List.filter_congr
      intro u _
      rw [lookup_dictInsert a var w u]
      by_cases hu : u = var
      · subst hu; simp
      · have : ¬ var = u := fun hc => hu hc.symm
        simp [this, hu]
    rw [hEq]
    exact Prod.Lex.left _ _ (by omega)
  · exact Prod.Lex.right _ (Prod.Lex.right _ (by simp [List.length_cons]))
  · exact Prod.Lex.right _ (Prod.Lex.right _ (by simp [List.length_cons]))
  · exact Prod.Lex.right _ (Prod.Lex.right _ (by simp [List.length_cons]))

end

/-- CrosswordCreator.solve (lines 88-94): seed every variable's domain with
the full vocabulary (the dict built in __init__), enforce node consistency,
run a global ac3 pass (its Boolean result is discarded, its domain pruning
kept) and start backtracking from the empty assignment. -/
def solve (cw : Crossword) : Option Assignment × Domains :=
  let d0 : Domains := fun _ => cw.words
  let d1 := enforce_node_consistency cw d0
  let d2 := (ac3 cw d1 (allArcs cw)).2
  backtrack cw [] d2

/-- Well-formedness of the Puzzle Structure (spec section 3): overlap
relation symmetric between the two slots of a crossing pair, stated over
the puzzle variables so that it is decidable on concrete puzzles. -/
abbrev symOverlaps (cw : Crossword) : Prop :=
  ∀ x ∈ cw.vars, ∀ y ∈ cw.vars,
    cw.overlaps y x = (cw.overlaps x y).map (fun p => (p.2, p.1))

/-- Well-formedness of the Puzzle Structure (spec section 3): a slot never
overlaps itself (the overlaps dict only has entries for distinct pairs). -/
abbrev irreflOverlaps (cw : Crossword) : Prop :=
  ∀ x ∈ cw.vars, cw.overlaps x x = none

/-- Word w of slot x has at least one agreeing partner v in slot y's
domain, for every w in x's domain (arc consistency of the arc (x, y) at
overlap indices (i, j)). -/
abbrev supportedAll (cw : Crossword) (d : Domains) (x y : Var)
    (i j : Nat) : Prop :=
  ∀ w ∈ d x, ∃ v ∈ d y, charAt w i = charAt v j

/-- A total assignment drawing every slot's word from its current domain
and satisfying every overlap constraint (the spec's "assignment extending
the current partial state, choosing each slot's word from its domain"). -/
abbrev solution (cw : Crossword) (d : Domains) (f : Var → Word) : Prop :=
  (∀ v ∈ cw.vars, f v ∈ d v)
  ∧ (∀ x ∈ cw.vars, ∀ y ∈ cw.vars, ∀ i j,
      cw.overlaps x y = some (i, j) → charAt (f x) i = charAt (f y) j)

/-- The AC-3 loop invariant: every overlap arc between puzzle slots is
either still pending on the worklist or already arc consistent. -/
abbrev AC3Inv (cw : Crossword) (d : Domains) (arcs : List (Var × Var)) :
    Prop :=
  ∀ x ∈ cw.vars, ∀ y ∈ cw.vars, ∀ i j, cw.overlaps x y = some (i, j) →
    ((x, y) ∈ arcs ∨ supportedAll cw d x y i j)

/-- Concrete slots and puzzles used to witness the claims. -/
def vX : Var := ⟨0, 0, false, 1⟩

def vY : Var := ⟨0, 1, true, 1⟩

/-- Two crossing one-letter slots, vocabulary a and b. -/
def cwXY : Crossword :=
  ⟨[vX, vY], {(['a'] : Word), ['b']},
   fun u v =>
     if (u = vX ∧ v = vY) ∨ (u = vY ∧ v = vX) then some (0, 0) else none⟩

/-- Domain store for the C5 witness: X has both words, Y only a. -/
def dC5 : Domains :=
  fun v => if v = vX then {(['a'] : Word), ['b']} else
    if v = vY then {(['a'] : Word)} else ∅

/-- Domain store for the C2 run: X is forced to a, Y still has a and b. -/
def dC2 : Domains :=
  fun v => if v = vX then {(['a'] : Word)} else
    if v = vY then {(['a'] : Word), ['b']} else ∅

/-- Domain store for the C7 counterexample: the crossing letters differ. -/
def dC7 : Domains :=
  fun v => if v = vX then {(['a'] : Word)} else
    if v = vY then {(['b'] : Word)} else ∅

def vA : Var := ⟨0, 0, false, 1⟩

def vB : Var := ⟨1, 0, false, 1⟩

def vC : Var := ⟨2, 0, false, 1⟩

def vD : Var := ⟨3, 0, false, 1⟩

/-- Four slots with overlap edges A-B, A-C and C-D (degrees 2, 1, 2, 1),
exercising the select_unassigned_variable tie-break. -/
def cwC3 : Crossword :=
  ⟨[vA, vB, vC, vD], ∅,
   fun u v =>
     if (u = vA ∧ v = vB) ∨ (u = vB ∧ v = vA) ∨ (u = vA ∧ v = vC) ∨
        (u = vC ∧ v = vA) ∨ (u = vC ∧ v = vD) ∨ (u = vD ∧ v = vC) then
       some (0, 0)
     else none⟩

/-- Domain sizes 2, 2, 1, 1 for A, B, C, D: the MRV-tied set is C, D. -/
def dC3 : Domains :=
  fun v => if v = vA ∨ v = vB then {(['a'] : Word), ['b']} else
    if v = vC then {(['c'] : Word)} else
    if v = vD then {(['d'] : Word)} else ∅

def vE : Var := ⟨9, 9, false, 1⟩

/-- One isolated slot, for the C4 counterexample. -/
def cwC4 : Crossword := ⟨[vE], ∅, fun _ _ => none⟩

/-- Empty domain store. -/
def dEmpty : Domains := fun _ => ∅

def vF : Var := ⟨0, 0, false, 3⟩

/-- One isolated slot of length 3, for the C8 counterexample. -/
def cwC8 : Crossword := ⟨[vF], ∅, fun _ _ => none⟩

/-- A puzzle with no slots at all, for the C1 witness. -/
def cwEmpty : Crossword := ⟨[], ∅, fun _ _ => none⟩

def vG : Var := ⟨0, 0, false, 2⟩

def vH : Var := ⟨0, 1, true, 2⟩

/-- Two length-2 slots crossing at character indices (0, 1) and (1, 0), for
the C10 demonstration: the word aa agrees with itself at the crossing. -/
def cwC10 : Crossword :=
  ⟨[vG, vH], {(['a', 'a'] : Word)},
   fun u v =>
     if u = vG ∧ v = vH then some (0, 1) else
     if u = vH ∧ v = vG then some (1, 0) else none⟩

/-- Both crossing slots hold only the word aa. -/
def dC10 : Domains :=
  fun v => if v = vG ∨ v = vH then {(['a', 'a'] : Word)} else ∅

theorem ac3_nil (cw : Crossword) (d : Domains) : ac3 cw d [] = (true, d) := by
  rw [ac3]

theorem ac3_cons_change_empty (cw : Crossword) (d : Domains) (x y : Var)
    (rest : List (Var × Var)) (h1 : (revise cw d x y).1 = true)
    (h2 : (revise cw d x y).2 x = ∅) :
    ac3 cw d ((x, y) :: rest) = (false, (revise cw d x y).2) := by
  rw [ac3]
  rw [dif_pos h1, if_pos h2]

theorem ac3_cons_change_cont (cw : Crossword) (d : Domains) (x y : Var)
    (rest : List (Var × Var)) (h1 : (revise cw d x y).1 = true)
    (h2 : (revise cw d x y).2 x ≠ ∅) :
    ac3 cw d ((x, y) :: rest) =
      ac3 cw (revise cw d x y).2
        (rest ++ ((neighbors cw x).filter (fun z => decide (z ≠ y))).map
          (fun z => (z, x))) := by
  rw [ac3]
  rw [dif_pos h1, if_neg h2]

theorem ac3_cons_nochange (cw : Crossword) (d : Domains) (x y : Var)
    (rest : List (Var × Var)) (h1 : (revise cw d x y).1 = false) :
    ac3 cw d ((x, y) :: rest) = ac3 cw d rest := by
  rw [ac3]
  rw [dif_neg (by simp [h1])]

theorem backtrack_done (cw : Crossword) (a : Assignment) (d : Domains)
    (h : assignment_complete cw a = true) :
    backtrack cw a d = (some a, d) := by
  rw [backtrack]
  rw [if_pos h]

theorem backtrack_step (cw : Crossword) (a : Assignment) (d : Domains)
    (var : Var) (h : assignment_complete cw a = false)
    (h2 : select_unassigned_variable cw d a = some var) :
    backtrack cw a d =
      tryValues cw var (order_domain_values cw d var a) a d := by
  rw [backtrack]
  rw [if_neg (by simp [h])]
  split
  · rename_i hnone; rw [h2] at hnone; exact absurd hnone (by simp)
  · rename_i v hv; rw [h2] at hv; cases hv; rfl

theorem tryValues_nil (cw : Crossword) (var : Var) (a : Assignment)
    (d : Domains) : tryValues cw var [] a d = (none, d) := by
  rw [tryValues]

theorem tryValues_cons_incons (cw : Crossword) (var : Var) (w : Word)
    (rest : List Word) (a : Assignment) (d : Domains)
    (h : consistent cw (dictInsert a var w) = false) :
    tryValues cw var (w :: rest) a d = tryValues cw var rest a d := by
  rw [tryValues]
  simp only [h]
  rw [if_neg (by simp)]

theorem tryValues_cons_acfail (cw : Crossword) (var : Var) (w : Word)
    (rest : List Word) (a : Assignment) (d : Domains)
    (hc : consistent cw (dictInsert a var w) = true)
    (hf : (ac3 cw d ((neighbors cw var).map (fun nb => (nb, var)))).1 =
      false) :
    tryValues cw var (w :: rest) a d =
      tryValues cw var rest a
        (ac3 cw d ((neighbors cw var).map (fun nb => (nb, var)))).2 := by
  rw [tryValues]
  simp [hc, hf]

theorem tryValues_cons_rec (cw : Crossword) (var : Var) (w : Word)
    (rest : List Word) (a : Assignment) (d : Domains)
    (hc : consistent cw (dictInsert a var w) = true)
    (ht : (ac3 cw d ((neighbors cw var).map (fun nb => (nb, var)))).1 =
      true) :
    tryValues cw var (w :: rest) a d =
      if truthy (backtrack cw (dictInsert a var w)
          (ac3 cw d ((neighbors cw var).map (fun nb => (nb, var)))).2).1 then
        backtrack cw (dictInsert a var w)
          (ac3 cw d ((neighbors cw var).map (fun nb => (nb, var)))).2
      else
        tryValues cw var rest a
          (backtrack cw (dictInsert a var w)
            (ac3 cw d ((neighbors cw var).map (fun nb => (nb, var)))).2).2 := by
  rw [tryValues]
  simp [hc, ht]

theorem revise_none (cw : Crossword) (d : Domains) (x y : Var)
    (h : cw.overlaps x y = none) : revise cw d x y = (false, d) := by
  simp [revise, h]

theorem revise_some_self (cw : Crossword) (d : Domains) (x y : Var)
    (i j : Nat) (h : cw.overlaps x y = some (i, j)) :
    (revise cw d x y).2 x =
      (d x).filter (fun w => ∃ v ∈ d y, charAt w i = charAt v j) := by
  simp only [revise, h, Function.update_same]
  ext w
  simp only [Finset.mem_sdiff, Finset.mem_filter]
  constructor
  · rintro ⟨hw, hns⟩
    refine ⟨hw, ?_⟩
    by_contra hno
    push_neg at hno
    exact hns ⟨hw, hno⟩
  · rintro ⟨hw, v, hv, hagree⟩
    refine ⟨hw, ?_⟩
    rintro ⟨-, hall⟩
    exact hall v hv hagree

theorem revise_some_other (cw : Crossword) (d : Domains) (x y z : Var)
    (hz : z ≠ x) : (revise cw d x y).2 z = d z := by
  rcases hov : cw.overlaps x y with _ | ⟨i, j⟩
  · simp [revise, hov]
  · simp only [revise, hov]
    exact Function.update_noteq hz _ _

theorem revise_fst_iff (cw : Crossword) (d : Domains) (x y : Var)
    (i j : Nat) (h : cw.overlaps x y = some (i, j)) :
    (revise cw d x y).1 = true ↔
      ∃ w ∈ d x, ∀ v ∈ d y, charAt w i ≠ charAt v j := by
  simp only [revise, h, decide_eq_true_eq]
  constructor
  · rintro ⟨w, hw⟩
    simp only [Finset.mem_filter] at hw
    exact ⟨w, hw.1, hw.2⟩
  · rintro ⟨w, hw, hall⟩
    exact ⟨w, Finset.mem_filter.mpr ⟨hw, hall⟩⟩

theorem revise_subset (cw : Crossword) (d : Domains) (x y z : Var) :
    (revise cw d x y).2 z ⊆ d z := by
  by_cases hz : z = x
  · subst hz
    rcases hov : cw.overlaps z y with _ | ⟨i, j⟩
    · simp [revise, hov]
    · rw [revise_some_self cw d z y i j hov]
      exact Finset.filter_subset _ _
  · rw [revise_some_other cw d x y z hz]

theorem revise_false_fix (cw : Crossword) (d : Domains) (x y : Var)
    (h : (revise cw d x y).1 = false) : (revise cw d x y).2 = d := by
  rcases hov : cw.overlaps x y with _ | ⟨i, j⟩
  · simp [revise, hov]
  · funext z
    by_cases hz : z = x
    · subst hz
      rw [revise_some_self cw d z y i j hov]
      have hall : ∀ w ∈ d z, ∃ v ∈ d y, charAt w i = charAt v j := by
        intro w hw
        by_contra hno
        push_neg at hno
        have : (revise cw d z y).1 = true :=
          (revise_fst_iff cw d z y i j hov).mpr ⟨w, hw, hno⟩
        rw [h] at this
        exact absurd this (by simp)
      exact Finset.filter_true_of_mem hall
    · exact revise_some_other cw d x y z hz

/-- Claim C5: for overlapping slots x and y, revise removes from domain(x)
exactly the words with no agreeing partner in domain(y) (keeping exactly
the supported ones), changes no other domain — in particular domain(y),
since a slot never overlaps itself — and reports true iff at least one word
was removed; for slots with no overlap it is a no-op reporting false. -/
theorem claim_revise_postcondition (cw : Crossword) (d d₂ : Domains)
    (x y x₂ y₂ : Var) (i j : Nat) (hov : cw.overlaps x y = some (i, j))
    (hxy : x ≠ y) (hnov : cw.overlaps x₂ y₂ = none) :
    (revise cw d x y).2 x =
      (d x).filter (fun w => ∃ v ∈ d y, charAt w i = charAt v j)
    ∧ (∀ w, w ∈ d x → w ∉ (revise cw d x y).2 x →
        ∀ v ∈ d y, charAt w i ≠ charAt v j)
    ∧ (∀ z, z ≠ x → (revise cw d x y).2 z = d z)
    ∧ (revise cw d x y).2 y = d y
    ∧ ((revise cw d x y).1 = true ↔
        ∃ w ∈ d x, ∀ v ∈ d y, charAt w i ≠ charAt v j)
    ∧ revise cw d₂ x₂ y₂ = (false, d₂) := by
  refine ⟨revise_some_self cw d x y i j hov, ?_, ?_, ?_, ?_, ?_⟩
  · intro w hw hnot v hv hagree
    apply hnot
    rw [revise_some_self cw d x y i j hov]
    exact Finset.mem_filter.mpr ⟨hw, v, hv, hagree⟩
  · exact fun z hz => revise_some_other cw d x y z hz
  · exact revise_some_other cw d x y y (Ne.symm hxy)
  · exact revise_fst_iff cw d x y i j hov
  · exact revise_none cw d₂ x₂ y₂ hnov

/-- Witness for C5 at a concrete two-slot puzzle. -/
theorem claim_revise_postcondition_witness :
    (revise cwXY dC5 vX vY).2 vX =
      (dC5 vX).filter (fun w => ∃ v ∈ dC5 vY, charAt w 0 = charAt v 0) ∧
    (revise cwXY dC5 vX vY).2 vY = dC5 vY ∧
    ((revise cwXY dC5 vX vY).1 = true ↔
      ∃ w ∈ dC5 vX, ∀ v ∈ dC5 vY, charAt w 0 ≠ charAt v 0) := by
  have h := claim_revise_postcondition cwXY dC5 dC5 vX vY vX vX 0 0
    (by decide) (by decide) (by decide)
  exact ⟨h.1, h.2.2.2.1, h.2.2.2.2.1⟩

theorem ac3_subset (cw : Crossword) (d : Domains) (arcs : List (Var × Var)) :
    ∀ z, (ac3 cw d arcs).2 z ⊆ d z := by
  induction d, arcs using ac3.induct cw with
  | case1 d => intro z; rw [ac3_nil]
  | case2 d x y rest hch hemp =>
    intro z
    rw [ac3_cons_change_empty cw d x y rest hch hemp]
    exact revise_subset cw d x y z
  | case3 d x y rest hch hemp ih =>
    intro z
    rw [ac3_cons_change_cont cw d x y rest hch hemp]
    exact fun w hw => revise_subset cw d x y z (ih z hw)
  | case4 d x y rest hch ih =>
    intro z
    rw [ac3_cons_nochange cw d x y rest (by simpa using hch)]
    exact ih z

theorem enforce_mem (cw : Crossword) (d : Domains) (v : Var)
    (hv : v ∈ cw.vars) (w : Word) :
    w ∈ enforce_node_consistency cw d v ↔ w ∈ d v ∧ v.length = w.length := by
  simp [enforce_node_consistency, hv]

/-- Claim C9: after enforce_node_consistency every word in every puzzle
variable's domain has the variable's length and every other word is gone;
revise and ac3 only ever remove words (never add one), so running any
propagation after the filter preserves the length invariant. -/
theorem claim_length_invariant (cw : Crossword) (d d₂ : Domains) (v : Var)
    (w : Word) (arcs arcs₂ : List (Var × Var)) (hv : v ∈ cw.vars) :
    (w ∈ enforce_node_consistency cw d v ↔ w ∈ d v ∧ v.length = w.length)
    ∧ (∀ x y z, (revise cw d₂ x y).2 z ⊆ d₂ z)
    ∧ (∀ z, (ac3 cw d₂ arcs₂).2 z ⊆ d₂ z)
    ∧ (∀ w', w' ∈ (ac3 cw (enforce_node_consistency cw d) arcs).2 v →
        v.length = w'.length) := by
  refine ⟨enforce_mem cw d v hv w,
    fun x y z => revise_subset cw d₂ x y z,
    ac3_subset cw d₂ arcs₂, ?_⟩
  intro w' hw'
  have hmem : w' ∈ enforce_node_consistency cw d v :=
    ac3_subset cw (enforce_node_consistency cw d) arcs v hw'
  exact ((enforce_mem cw d v hv w').mp hmem).2

/-- Witness for C9 at the concrete two-slot puzzle. -/
theorem claim_length_invariant_witness :
    (['a'] ∈ enforce_node_consistency cwXY dC5 vX ↔
      ['a'] ∈ dC5 vX ∧ vX.length = (['a'] : Word).length) ∧
    (∀ w', w' ∈ (ac3 cwXY (enforce_node_consistency cwXY dC5) []).2 vX →
      vX.length = w'.length) := by
  have h := claim_length_invariant cwXY dC5 dC5 vX ['a'] [] [] (by decide)
  exact ⟨h.1, h.2.2.2⟩

/-- Claim C10: a word counts as its own support across an overlap — when w
agrees with itself at the overlap indices and sits in both domains, revise
never removes it; consequently ac3 (full arc list) succeeds on the concrete
state where both crossing slots hold only the word aa, and only the
consistent checker rejects assigning aa to both slots. -/
theorem claim_word_self_support (cw : Crossword) (d : Domains) (x y : Var)
    (i j : Nat) (w : Word) (hov : cw.overlaps x y = some (i, j))
    (hwx : w ∈ d x) (hwy : w ∈ d y) (hc : charAt w i = charAt w j) :
    w ∈ (revise cw d x y).2 x
    ∧ ac3 cwC10 dC10 (allArcs cwC10) = (true, dC10)
    ∧ consistent cwC10 [(vG, ['a', 'a']), (vH, ['a', 'a'])] = false := by
  refine ⟨?_, ?_, by decide⟩
  · rw [revise_some_self cw d x y i j hov]
    exact Finset.mem_filter.mpr ⟨hwx, w, hwy, hc⟩
  · rw [show allArcs cwC10 = [(vG, vH), (vH, vG)] from rfl]
    rw [ac3_cons_nochange _ _ _ _ _ (by decide),
      ac3_cons_nochange _ _ _ _ _ (by decide), ac3_nil]

/-- Witness for C10: aa survives revise between the two crossing slots that
both hold only aa. -/
theorem claim_word_self_support_witness :
    ['a', 'a'] ∈ (revise cwC10 dC10 vG vH).2 vG := by
  exact (claim_word_self_support cwC10 dC10 vG vH 0 1 ['a', 'a']
    (by decide) (by decide) (by decide) (by decide)).1

/-- Claim C3 is violated by the code: on the concrete four-slot puzzle the
MRV-tied set is C, D (domain size 1) but select_unassigned_variable
returns A whose domain has size 2, because degree.index(max(min_degree))
searches the whole degree list, in which A (degree 2, the same as C's)
comes first.  A is unassigned, so the slip stays inside the unassigned
list, but the choice is neither MRV-minimal nor from the tied set. -/
theorem claim_select_mrv_degree_bug :
    select_unassigned_variable cwC3 dC3 [] = some vA
    ∧ (dC3 vA).card = 2 ∧ (dC3 vC).card = 1 ∧ (dC3 vD).card = 1
    ∧ vC ∈ cwC3.vars ∧ vD ∈ cwC3.vars
    ∧ (lookup [] vC).isNone = true ∧ (lookup [] vD).isNone = true
    ∧ (neighbors cwC3 vA).length = 2 ∧ (neighbors cwC3 vC).length = 2
    ∧ (neighbors cwC3 vD).length = 1 := by decide

theorem lookup_mem (a : Assignment) (v : Var) (w : Word)
    (h : lookup a v = some w) : (v, w) ∈ a := by
  induction a with
  | nil => simp [lookup] at h
  | cons p rest ih =>
    obtain ⟨k, w'⟩ := p
    simp only [lookup] at h
    by_cases hk : k = v
    · subst hk
      rw [if_pos rfl] at h
      cases h
      exact List.mem_cons_self _ _
    · rw [if_neg hk] at h
      exact List.mem_cons_of_mem _ (ih h)

theorem lookup_of_mem (a : Assignment) (v : Var) (w : Word)
    (hnd : (a.map Prod.fst).Nodup) (h : (v, w) ∈ a) :
    lookup a v = some w := by
  induction a with
  | nil => simp at h
  | cons p rest ih =>
    obtain ⟨k, w'⟩ := p
    simp only [List.map_cons, List.nodup_cons] at hnd
    rcases List.mem_cons.mp h with heq | hmem
    · cases heq
      simp [lookup]
    · have hkv : k ≠ v := by
        intro hkv
        subst hkv
        exact hnd.1 (List.mem_map.mpr ⟨(k, w), hmem, rfl⟩)
      simp only [lookup, if_neg hkv]
      exact ih hnd.2 hmem

theorem consistent_iff (cw : Crossword) (a : Assignment)
    (hkeys : ∀ p ∈ a, (p : Var × Word).1 ∈ cw.vars)
    (hnd : (a.map Prod.fst).Nodup)
    (hsym : symOverlaps cw) (hirr : irreflOverlaps cw) :
    consistent cw a = true ↔
      (∀ p ∈ a, (p : Var × Word).1.length = p.2.length)
      ∧ (∀ p ∈ a, ∀ q ∈ a, ∀ i j,
          cw.overlaps (p : Var × Word).1 (q : Var × Word).1 = some (i, j) →
          charAt p.2 i = charAt q.2 j)
      ∧ (a.map Prod.snd).Nodup := by
  simp only [consistent, Bool.and_eq_true, List.all_eq_true,
    decide_eq_true_eq]
  constructor
  · rintro ⟨hall, hnodup⟩
    refine ⟨fun p hp => ((hall p hp).1 : _), ?_, hnodup⟩
    intro p hp q hq i j hov
    by_cases hpq : p.1 = q.1
    · exfalso
      rw [hpq] at hov
      rw [hirr q.1 (hkeys q hq)] at hov
      exact absurd hov (by simp)
    · have hnb : q.1 ∈ neighbors cw p.1 := by
        simp only [neighbors, List.mem_filter, Bool.and_eq_true,
          decide_eq_true_eq]
        refine ⟨hkeys q hq, fun h => hpq h.symm, ?_⟩
        rw [hsym p.1 (hkeys p hp) q.1 (hkeys q hq), hov]
        simp
      have hq2 := (hall p hp).2 q.1 hnb
      rw [lookup_of_mem a q.1 q.2 hnd (by simpa using hq)] at hq2
      rw [hov] at hq2
      simpa using hq2
  · rintro ⟨hlen, hov, hnodup⟩
    refine ⟨fun p hp => ⟨hlen p hp, ?_⟩, hnodup⟩
    intro nb hnb
    rcases hlk : lookup a nb with _ | nw
    · simp
    · rcases hovr : cw.overlaps p.1 nb with _ | ⟨i, j⟩
      · simp
      · simp only [decide_eq_true_eq]
        exact hov p hp (nb, nw) (lookup_mem a nb nw hlk) i j hovr

/-- Claim C8 as stated is false on the code: consistent also rejects an
assignment whose word length does not match its slot (line 190), so on a
one-slot puzzle with no overlap relation at all and pairwise-distinct
words, the checker still returns false. -/
theorem claim_consistent_missing_length_clause :
    consistent cwC8 [(vF, ['a', 'b'])] = false
    ∧ (∀ x y i j, cwC8.overlaps x y = some (i, j) → False)
    ∧ (([(vF, (['a', 'b'] : Word))].map Prod.snd).Nodup) := by
  refine ⟨by decide, ?_, by decide⟩
  intro x y i j h
  simp [cwC8] at h

/-- Claim C8, amended: for dict-shaped assignments over the puzzle's slots
(distinct keys) and a well-formed overlap relation, consistent returns true
iff every assigned word has its slot's length, every two assigned slots
with an overlap relation agree at the overlap indices, and the assigned
words are pairwise distinct; it returns false otherwise.  (The checker is
pure: it is a function of the crossword and the assignment only.) -/
theorem claim_consistent_characterization (cw : Crossword) (a : Assignment)
    (hkeys : ∀ p ∈ a, (p : Var × Word).1 ∈ cw.vars)
    (hnd : (a.map Prod.fst).Nodup)
    (hsym : symOverlaps cw) (hirr : irreflOverlaps cw) :
    consistent cw a = true ↔
      (∀ p ∈ a, (p : Var × Word).1.length = p.2.length)
      ∧ (∀ p ∈ a, ∀ q ∈ a, ∀ i j,
          cw.overlaps (p : Var × Word).1 (q : Var × Word).1 = some (i, j) →
          charAt p.2 i = charAt q.2 j)
      ∧ (a.map Prod.snd).Nodup :=
  consistent_iff cw a hkeys hnd hsym hirr

/-- Witness for the amended C8 at a concrete assignment. -/
theorem claim_consistent_characterization_witness :
    consistent cwXY [(vX, ['a'])] = true := by
  apply (claim_consistent_characterization cwXY [(vX, ['a'])]
    (by decide) (by decide) (by decide) (by decide)).mpr
  refine ⟨by decide, ?_, by decide⟩
  intro p hp q hq i j hov
  simp only [List.mem_singleton] at hp hq
  subst hp; subst hq
  rw [show cwXY.overlaps vX vX = none from by decide] at hov
  exact absurd hov (by simp)

theorem ac3_false_empty (cw : Crossword) (d : Domains)
    (arcs : List (Var × Var)) (hf : (ac3 cw d arcs).1 = false) :
    ∃ v, (ac3 cw d arcs).2 v = ∅ := by
  induction d, arcs using ac3.induct cw with
  | case1 d =>
    rw [ac3_nil] at hf
    exact absurd hf (by simp)
  | case2 d x y rest hch hemp =>
    rw [ac3_cons_change_empty cw d x y rest hch hemp] at hf ⊢
    exact ⟨x, hemp⟩
  | case3 d x y rest hch hemp ih =>
    rw [ac3_cons_change_cont cw d x y rest hch hemp] at hf ⊢
    exact ih hf
  | case4 d x y rest hch ih =>
    rw [ac3_cons_nochange cw d x y rest (by simpa using hch)] at hf ⊢
    exact ih hf

/-- Claim C4 as stated is false on the code: ac3 returns success exactly
when the worklist drains without a revision emptying the revised domain —
not "with no domain left empty".  On a one-slot puzzle whose only domain is
already empty, the default worklist is empty, ac3 returns True, and the
slot's domain is empty. -/
theorem claim_ac3_success_despite_empty_domain :
    (ac3 cwC4 dEmpty (allArcs cwC4)).1 = true
    ∧ vE ∈ cwC4.vars
    ∧ (ac3 cwC4 dEmpty (allArcs cwC4)).2 vE = ∅ := by
  rw [show allArcs cwC4 = [] from rfl, ac3_nil]
  exact ⟨rfl, by decide, rfl⟩

/-- Claim C4, amended: ac3 pops the front arc (x, y) and calls
revise(x, y); if the revision empties domain(x) it returns failure at once,
with no further arc evaluated; if it revises without emptying, exactly the
arcs (z, x) for the slots z that overlap x other than y are appended to the
end of the worklist; with no revision it just continues; an empty worklist
returns success with the domains untouched; and whenever ac3 returns
failure some slot's final domain is empty (success however tolerates a
domain that was already empty and never revised). -/
theorem claim_ac3_worklist_semantics (cw : Crossword) (d d₂ : Domains)
    (x y : Var) (rest arcs₂ : List (Var × Var))
    (hfail : (ac3 cw d₂ arcs₂).1 = false) :
    ac3 cw d [] = (true, d)
    ∧ ((revise cw d x y).1 = true → (revise cw d x y).2 x = ∅ →
        ac3 cw d ((x, y) :: rest) = (false, (revise cw d x y).2))
    ∧ ((revise cw d x y).1 = true → (revise cw d x y).2 x ≠ ∅ →
        ac3 cw d ((x, y) :: rest) =
          ac3 cw (revise cw d x y).2
            (rest ++ ((neighbors cw x).filter (fun z => decide (z ≠ y))).map
              (fun z => (z, x))))
    ∧ (∀ p, p ∈ ((neighbors cw x).filter (fun z => decide (z ≠ y))).map
          (fun z => (z, x)) ↔
        ∃ z, z ∈ cw.vars ∧ z ≠ x ∧ z ≠ y ∧ (cw.overlaps z x).isSome ∧
          p = (z, x))
    ∧ ((revise cw d x y).1 = false →
        ac3 cw d ((x, y) :: rest) = ac3 cw d rest)
    ∧ (∃ v, (ac3 cw d₂ arcs₂).2 v = ∅) := by
  refine ⟨ac3_nil cw d,
    fun h1 h2 => ac3_cons_change_empty cw d x y rest h1 h2,
    fun h1 h2 => ac3_cons_change_cont cw d x y rest h1 h2, ?_,
    fun h1 => ac3_cons_nochange cw d x y rest h1,
    ac3_false_empty cw d₂ arcs₂ hfail⟩
  intro p
  simp only [List.mem_map, List.mem_filter, neighbors, Bool.and_eq_true,
    decide_eq_true_eq]
  constructor
  · rintro ⟨z, ⟨⟨hz, hzx, hzs⟩, hzy⟩, rfl⟩
    exact ⟨z, hz, hzx, hzy, hzs, rfl⟩
  · rintro ⟨z, hz, hzx, hzy, hzs, rfl⟩
    exact ⟨z, ⟨⟨hz, hzx, hzs⟩, hzy⟩, rfl⟩

/-- Witness for the amended C4: on the two crossing one-letter slots with
clashing letters, the arc (X, Y) empties domain(X), ac3 fails, and some
final domain is indeed empty; the empty worklist returns success. -/
theorem claim_ac3_worklist_semantics_witness :
    (∃ v, (ac3 cwXY dC7 [(vX, vY)]).2 v = ∅)
    ∧ ac3 cwXY dEmpty [] = (true, dEmpty) := by
  have hfail : (ac3 cwXY dC7 [(vX, vY)]).1 = false := by
    rw [ac3_cons_change_empty cwXY dC7 vX vY [] (by decide) (by decide)]
  have H := claim_ac3_worklist_semantics cwXY dEmpty dC7 vX vY [] [(vX, vY)]
    hfail
  exact ⟨H.2.2.2.2.2, H.1⟩

theorem revise_preserves_solution (cw : Crossword) (d : Domains)
    (x y : Var) (f : Var → Word) (hy : y ∈ cw.vars)
    (hsol : solution cw d f) : solution cw (revise cw d x y).2 f := by
  refine ⟨?_, hsol.2⟩
  intro v hv
  by_cases hvx : v = x
  · subst hvx
    rcases hov : cw.overlaps v y with _ | ⟨i, j⟩
    · rw [revise_none cw d v y hov]
      exact hsol.1 v hv
    · rw [revise_some_self cw d v y i j hov]
      exact Finset.mem_filter.mpr
        ⟨hsol.1 v hv, f y, hsol.1 y hy, hsol.2 v hv y hy i j hov⟩
  · rw [revise_some_other cw d x y v hvx]
    exact hsol.1 v hv

theorem ac3_false_no_solution (cw : Crossword) (d : Domains)
    (arcs : List (Var × Var)) :
    (∀ p ∈ arcs, (p : Var × Var).1 ∈ cw.vars ∧ p.2 ∈ cw.vars) →
    (ac3 cw d arcs).1 = false → ∀ f, solution cw d f → False := by
  induction d, arcs using ac3.induct cw with
  | case1 d =>
    intro _ hf
    rw [ac3_nil] at hf
    exact absurd hf (by simp)
  | case2 d x y rest hch hemp =>
    intro hwf _ f hsol
    have hx : x ∈ cw.vars := (hwf (x, y) (List.mem_cons_self _ _)).1
    have hy : y ∈ cw.vars := (hwf (x, y) (List.mem_cons_self _ _)).2
    have hsol' := revise_preserves_solution cw d x y f hy hsol
    have : f x ∈ (revise cw d x y).2 x := hsol'.1 x hx
    rw [hemp] at this
    exact absurd this (by simp)
  | case3 d x y rest hch hemp ih =>
    intro hwf hf f hsol
    have hy : y ∈ cw.vars := (hwf (x, y) (List.mem_cons_self _ _)).2
    have hx : x ∈ cw.vars := (hwf (x, y) (List.mem_cons_self _ _)).1
    rw [ac3_cons_change_cont cw d x y rest hch hemp] at hf
    refine ih ?_ hf f (revise_preserves_solution cw d x y f hy hsol)
    intro p hp
    rcases List.mem_append.mp hp with hp | hp
    · exact hwf p (List.mem_cons_of_mem _ hp)
    · rcases List.mem_map.mp hp with ⟨z, hz, rfl⟩
      have hz1 : z ∈ neighbors cw x := (List.mem_filter.mp hz).1
      have hz2 : z ∈ cw.vars := by
        simp only [neighbors] at hz1
        exact (List.mem_filter.mp hz1).1
      exact ⟨hz2, hx⟩
  | case4 d x y rest hch ih =>
    intro hwf hf f hsol
    rw [ac3_cons_nochange cw d x y rest (by simpa using hch)] at hf
    exact ih (fun p hp => hwf p (List.mem_cons_of_mem _ hp)) hf f hsol

theorem allArcs_mem (cw : Crossword) (u v : Var) :
    (u, v) ∈ allArcs cw ↔
      u ∈ cw.vars ∧ v ∈ cw.vars ∧ u ≠ v ∧ (cw.overlaps u v).isSome := by
  simp only [allArcs, List.mem_flatMap, List.mem_filterMap]
  constructor
  · rintro ⟨x, hx, y, hy, hif⟩
    by_cases hc : x ≠ y ∧ (cw.overlaps x y).isSome
    · rw [if_pos hc] at hif
      cases hif
      exact ⟨hx, hy, hc.1, hc.2⟩
    · rw [if_neg hc] at hif
      exact absurd hif (by simp)
  · rintro ⟨hu, hv, hne, hs⟩
    exact ⟨u, hu, v, hv, by rw [if_pos ⟨hne, hs⟩]⟩

theorem AC3Inv_step_nochange (cw : Crossword) (d : Domains) (x y : Var)
    (rest : List (Var × Var)) (hch : (revise cw d x y).1 = false)
    (hInv : AC3Inv cw d ((x, y) :: rest)) : AC3Inv cw d rest := by
  intro u hu v hv i j hov
  rcases hInv u hu v hv i j hov with hmem | hsup
  · rcases List.mem_cons.mp hmem with heq | hmem2
    · right
      obtain ⟨rfl, rfl⟩ : u = x ∧ v = y :=
        ⟨congrArg Prod.fst heq, congrArg Prod.snd heq⟩
      intro w hw
      by_contra hno
      push_neg at hno
      have : (revise cw d u v).1 = true :=
        (revise_fst_iff cw d u v i j hov).mpr ⟨w, hw, hno⟩
      rw [hch] at this
      exact absurd this (by simp)
    · exact Or.inl hmem2
  · exact Or.inr hsup

theorem AC3Inv_step_change (cw : Crossword) (d : Domains) (x y : Var)
    (rest : List (Var × Var)) (hsym : symOverlaps cw)
    (hirr : irreflOverlaps cw) (hch : (revise cw d x y).1 = true)
    (hInv : AC3Inv cw d ((x, y) :: rest)) :
    AC3Inv cw (revise cw d x y).2
      (rest ++ ((neighbors cw x).filter (fun z => decide (z ≠ y))).map
        (fun z => (z, x))) := by
  rcases hxy : cw.overlaps x y with _ | ⟨i0, j0⟩
  · exfalso
    rw [revise_none cw d x y hxy] at hch
    exact absurd hch (by simp)
  intro u hu v hv i j hov
  rcases hInv u hu v hv i j hov with hmem | hsup
  · rcases List.mem_cons.mp hmem with heq | hrest
    · -- the popped arc itself: revise just made it consistent.
      obtain ⟨rfl, rfl⟩ : u = x ∧ v = y :=
        ⟨congrArg Prod.fst heq, congrArg Prod.snd heq⟩
      right
      have hxney : u ≠ v := by
        intro he
        rw [he, hirr v hv] at hov
        exact absurd hov (by simp)
      rw [hxy] at hov
      cases hov
      intro w hw
      rw [revise_some_self cw d u v i0 j0 hxy] at hw
      obtain ⟨hwx, v', hv', hagree⟩ := Finset.mem_filter.mp hw
      refine ⟨v', ?_, hagree⟩
      rw [revise_some_other cw d u v v (Ne.symm hxney)]
      exact hv'
    · exact Or.inl (List.mem_append_left _ hrest)
  · by_cases hvx : v = x
    · subst hvx
      have hux : u ≠ v := by
        intro he
        rw [he, hirr v hv] at hov
        exact absurd hov (by simp)
      by_cases huy : u = y
      · subst huy
        -- the arc (y, x) is not re-queued: a removed word of x supported
        -- no word of y, because support across one overlap is mutual.
        right
        have hvneu : v ≠ u := by
          intro he
          rw [he, hirr u hu] at hxy
          exact absurd hxy (by simp)
        have hswap := hsym v hv u hu
        rw [hov, hxy] at hswap
        obtain ⟨hi, hj⟩ : i = j0 ∧ j = i0 := by simpa using hswap
        subst hi
        subst hj
        intro b hb
        rw [revise_some_other cw d v u u (Ne.symm hvneu)] at hb
        obtain ⟨a0, ha0, hag⟩ := hsup b hb
        refine ⟨a0, ?_, hag⟩
        rw [revise_some_self cw d v u j i hxy]
        exact Finset.mem_filter.mpr ⟨ha0, b, hb, hag.symm⟩
      · -- every other arc pointing into x is re-queued.
        left
        refine List.mem_append_right _ (List.mem_map.mpr ⟨u, ?_, rfl⟩)
        refine List.mem_filter.mpr ⟨?_, by simp [huy]⟩
        simp only [neighbors, List.mem_filter, Bool.and_eq_true,
          decide_eq_true_eq]
        exact ⟨hu, hux, by rw [hov]; rfl⟩
    · -- arcs into an untouched domain stay consistent.
      right
      intro w hw
      have hw2 : w ∈ d u := revise_subset cw d x y u hw
      obtain ⟨p, hp, hag⟩ := hsup w hw2
      refine ⟨p, ?_, hag⟩
      rw [revise_some_other cw d x y v hvx]
      exact hp

theorem ac3_true_arcCons (cw : Crossword) (hsym : symOverlaps cw)
    (hirr : irreflOverlaps cw) (d : Domains) (arcs : List (Var × Var)) :
    AC3Inv cw d arcs → (ac3 cw d arcs).1 = true →
    ∀ x ∈ cw.vars, ∀ y ∈ cw.vars, ∀ i j, cw.overlaps x y = some (i, j) →
      supportedAll cw (ac3 cw d arcs).2 x y i j := by
  induction d, arcs using ac3.induct cw with
  | case1 d =>
    intro hInv _ x hx y hy i j hov
    rw [ac3_nil]
    rcases hInv x hx y hy i j hov with h | h
    · exact absurd h (by simp)
    · exact h
  | case2 d x y rest hch hemp =>
    intro _ ht
    rw [ac3_cons_change_empty cw d x y rest hch hemp] at ht
    exact absurd ht (by simp)
  | case3 d x y rest hch hemp ih =>
    intro hInv ht
    rw [ac3_cons_change_cont cw d x y rest hch hemp] at ht ⊢
    exact ih (AC3Inv_step_change cw d x y rest hsym hirr hch hInv) ht
  | case4 d x y rest hch ih =>
    intro hInv ht
    rw [ac3_cons_nochange cw d x y rest (by simpa using hch)] at ht ⊢
    exact ih (AC3Inv_step_nochange cw d x y rest (by simpa using hch) hInv)
      ht

theorem arcCons_ac3_noop (cw : Crossword) (d : Domains) :
    ∀ arcs : List (Var × Var),
    (∀ x y i j, (x, y) ∈ arcs → cw.overlaps x y = some (i, j) →
      supportedAll cw d x y i j) →
    ac3 cw d arcs = (true, d) := by
  intro arcs
  induction arcs with
  | nil => intro _; exact ac3_nil cw d
  | cons p rest ih =>
    obtain ⟨x, y⟩ := p
    intro h
    have hch : (revise cw d x y).1 = false := by
      rcases hov : cw.overlaps x y with _ | ⟨i, j⟩
      · rw [revise_none cw d x y hov]
      · by_contra hne
        have : (revise cw d x y).1 = true := by
          cases hb : (revise cw d x y).1
          · exact absurd hb hne
          · rfl
        obtain ⟨w, hw, hall⟩ := (revise_fst_iff cw d x y i j hov).mp this
        obtain ⟨v, hv, hag⟩ :=
          h x y i j (List.mem_cons_self _ _) hov w hw
        exact hall v hv hag
    rw [ac3_cons_nochange cw d x y rest hch]
    exact ih (fun x' y' i j hmem hov =>
      h x' y' i j (List.mem_cons_of_mem _ hmem) hov)

theorem allArcs_AC3Inv (cw : Crossword) (hirr : irreflOverlaps cw)
    (d : Domains) : AC3Inv cw d (allArcs cw) := by
  intro x hx y hy i j hov
  left
  refine (allArcs_mem cw x y).mpr ⟨hx, hy, ?_, by rw [hov]; rfl⟩
  intro he
  rw [he, hirr y hy] at hov
  exact absurd hov (by simp)

/-- Claim C6: if ac3 reports failure then no total assignment drawing each
slot's word from the pre-propagation domains satisfies all overlap
constraints; and if ac3 started from the full arc list reports success,
every word remaining in any slot's domain has an agreeing partner in the
final domain of every overlapping slot. -/
theorem claim_ac3_soundness (cw : Crossword) (d d₂ : Domains)
    (arcs : List (Var × Var)) (f : Var → Word)
    (hsym : symOverlaps cw) (hirr : irreflOverlaps cw)
    (hwf : ∀ p ∈ arcs, (p : Var × Var).1 ∈ cw.vars ∧ p.2 ∈ cw.vars)
    (hfail : (ac3 cw d arcs).1 = false)
    (hsucc : (ac3 cw d₂ (allArcs cw)).1 = true) :
    ¬ solution cw d f
    ∧ (∀ x ∈ cw.vars, ∀ y ∈ cw.vars, ∀ i j,
        cw.overlaps x y = some (i, j) →
        ∀ w ∈ (ac3 cw d₂ (allArcs cw)).2 x,
          ∃ v ∈ (ac3 cw d₂ (allArcs cw)).2 y, charAt w i = charAt v j) := by
  constructor
  · exact fun hsol => ac3_false_no_solution cw d arcs hwf hfail f hsol
  · exact ac3_true_arcCons cw hsym hirr d₂ (allArcs cw)
      (allArcs_AC3Inv cw hirr d₂) hsucc

/-- Witness for C6: on the two crossing one-letter slots, propagation from
clashing singleton domains fails (and indeed no solution exists), while
propagation from domains a / a,b succeeds into arc-consistent domains. -/
theorem claim_ac3_soundness_witness :
    ¬ solution cwXY dC7 (fun _ => ['a'])
    ∧ (∀ x ∈ cwXY.vars, ∀ y ∈ cwXY.vars, ∀ i j,
        cwXY.overlaps x y = some (i, j) →
        ∀ w ∈ (ac3 cwXY dC2 (allArcs cwXY)).2 x,
          ∃ v ∈ (ac3 cwXY dC2 (allArcs cwXY)).2 y, charAt w i = charAt v j) := by
  have hfail : (ac3 cwXY dC7 [(vX, vY)]).1 = false := by
    rw [ac3_cons_change_empty cwXY dC7 vX vY [] (by decide) (by decide)]
  have harc : allArcs cwXY = [(vX, vY), (vY, vX)] := rfl
  have hsucc : (ac3 cwXY dC2 (allArcs cwXY)).1 = true := by
    rw [harc, ac3_cons_nochange cwXY dC2 vX vY _ (by decide),
      ac3_cons_change_cont cwXY dC2 vY vX _ (by decide) (by decide),
      show ((neighbors cwXY vY).filter (fun z => decide (z ≠ vX))).map
        (fun z => (z, vY)) = [] from rfl]
    rw [show ([] : List (Var × Var)) ++ [] = [] from rfl, ac3_nil]
  exact claim_ac3_soundness cwXY dC7 dC2 [(vX, vY)] (fun _ => ['a'])
    (by decide) (by decide) (by decide) hfail hsucc

/-- Claim C7 as stated is false on the code: when the first full-arc-list
run fails (here it empties domain(X) and stops), a second run prunes
further — it empties domain(Y) too — so running ac3 twice does not always
leave the domains of a single run. -/
theorem claim_ac3_twice_differs :
    (ac3 cwXY dC7 (allArcs cwXY)).2 vY = {(['b'] : Word)}
    ∧ (ac3 cwXY ((ac3 cwXY dC7 (allArcs cwXY)).2) (allArcs cwXY)).2 vY = ∅
    ∧ ({(['b'] : Word)} : Finset Word) ≠ ∅ := by
  have harc : allArcs cwXY = [(vX, vY), (vY, vX)] := rfl
  have e1 : ac3 cwXY dC7 (allArcs cwXY) =
      (false, (revise cwXY dC7 vX vY).2) := by
    rw [harc]
    exact ac3_cons_change_empty cwXY dC7 vX vY _ (by decide) (by decide)
  have e2 : ac3 cwXY ((revise cwXY dC7 vX vY).2) (allArcs cwXY) =
      (false, (revise cwXY ((revise cwXY dC7 vX vY).2) vY vX).2) := by
    rw [harc, ac3_cons_nochange cwXY _ vX vY _ (by decide)]
    exact ac3_cons_change_empty cwXY _ vY vX _ (by decide) (by decide)
  refine ⟨?_, ?_, by decide⟩
  · rw [e1]
    decide
  · rw [e1]
    simp only
    rw [e2]
    decide

/-- Claim C7, amended: whenever the first run of ac3 with the default full
arc list reports success, a second full-arc-list run returns success and
leaves every slot's domain exactly as the first run produced; after a
failed first run a second run may prune further. -/
theorem claim_ac3_idempotent_on_success (cw : Crossword) (d : Domains)
    (hsym : symOverlaps cw) (hirr : irreflOverlaps cw)
    (hsucc : (ac3 cw d (allArcs cw)).1 = true) :
    ac3 cw ((ac3 cw d (allArcs cw)).2) (allArcs cw) =
      (true, (ac3 cw d (allArcs cw)).2) := by
  apply arcCons_ac3_noop
  intro x y i j hmem hov
  obtain ⟨hx, hy, -, -⟩ := (allArcs_mem cw x y).mp hmem
  exact ac3_true_arcCons cw hsym hirr d (allArcs cw)
    (allArcs_AC3Inv cw hirr d) hsucc x hx y hy i j hov

/-- Witness for the amended C7 on the self-supporting double-a puzzle. -/
theorem claim_ac3_idempotent_on_success_witness :
    ac3 cwC10 ((ac3 cwC10 dC10 (allArcs cwC10)).2) (allArcs cwC10) =
      (true, (ac3 cwC10 dC10 (allArcs cwC10)).2) := by
  have harc : allArcs cwC10 = [(vG, vH), (vH, vG)] := rfl
  have hsucc : (ac3 cwC10 dC10 (allArcs cwC10)).1 = true := by
    rw [harc, ac3_cons_nochange cwC10 dC10 vG vH _ (by decide),
      ac3_cons_nochange cwC10 dC10 vH vG _ (by decide), ac3_nil]
  exact claim_ac3_idempotent_on_success cwC10 dC10 (by decide) (by decide)
    hsucc

theorem UCount_dictInsert (cw : Crossword) (a : Assignment) (var : Var)
    (w : Word) : UCount cw (dictInsert a var w) = UCountExcl cw a var := by
  unfold UCount UCountExcl
  congr 1
  apply List.filter_congr
  intro u _
  rw [lookup_dictInsert a var w u]
  by_cases hu : u = var
  · subst hu; simp
  · have h2 : ¬ var = u := fun hc => hu hc.symm
    simp [h2, hu]

theorem UCountExcl_lt (cw : Crossword) (a : Assignment) (var : Var)
    (hvar : var ∈ cw.vars.filter (fun v => (lookup a v).isNone)) :
    UCountExcl cw a var < UCount cw a := by
  unfold UCountExcl UCount
  rw [← List.filter_filter]
  apply List.length_filter_lt_length_iff_exists.mpr
  exact ⟨var, hvar, by simp⟩

theorem backtrack_none (cw : Crossword) (a : Assignment) (d : Domains)
    (h : assignment_complete cw a = false)
    (h2 : select_unassigned_variable cw d a = none) :
    backtrack cw a d = (none, d) := by
  rw [backtrack, if_neg (by simp [h])]
  split
  · rfl
  · rename_i v hv
    rw [h2] at hv
    exact absurd hv (by simp)

theorem tryValues_sound (cw : Crossword) (var : Var) (a : Assignment)
    (IH : ∀ a' d' m, UCount cw a' < UCount cw a →
      (backtrack cw a' d').1 = some m →
      assignment_complete cw m = true ∧ (m = a' ∨ consistent cw m = true))
    (hvar : var ∈ cw.vars.filter (fun v => (lookup a v).isNone)) :
    ∀ (vals : List Word) (d : Domains) (m : Assignment),
      (tryValues cw var vals a d).1 = some m →
      assignment_complete cw m = true ∧ consistent cw m = true := by
  intro vals
  induction vals with
  | nil =>
    intro d m h
    rw [tryValues_nil] at h
    exact absurd h (by simp)
  | cons w rest ih =>
    intro d m h
    by_cases hc : consistent cw (dictInsert a var w) = true
    · by_cases hac : (ac3 cw d
          ((neighbors cw var).map (fun nb => (nb, var)))).1 = true
      · rw [tryValues_cons_rec cw var w rest a d hc hac] at h
        by_cases htr : truthy (backtrack cw (dictInsert a var w)
            (ac3 cw d ((neighbors cw var).map (fun nb => (nb, var)))).2).1 =
            true
        · rw [if_pos htr] at h
          have hUlt : UCount cw (dictInsert a var w) < UCount cw a := by
            rw [UCount_dictInsert]
            exact UCountExcl_lt cw a var hvar
          have H := IH _ _ m hUlt h
          rcases H.2 with rfl | hcons
          · exact ⟨H.1, hc⟩
          · exact ⟨H.1, hcons⟩
        · rw [if_neg htr] at h
          exact ih _ m h
      · rw [tryValues_cons_acfail cw var w rest a d hc
          (by simpa using hac)] at h
        exact ih _ m h
    · rw [tryValues_cons_incons cw var w rest a d (by simpa using hc)] at h
      exact ih _ m h

theorem backtrack_sound (cw : Crossword) :
    ∀ (n : Nat) (a : Assignment) (d : Domains) (m : Assignment),
      UCount cw a = n → (backtrack cw a d).1 = some m →
      assignment_complete cw m = true ∧ (m = a ∨ consistent cw m = true) := by
  intro n
  induction n using Nat.strong_induction_on with
  | _ n ihn =>
    intro a d m hUa h
    by_cases hcomp : assignment_complete cw a = true
    · rw [backtrack_done cw a d hcomp] at h
      have h' : some a = some m := h
      injection h' with h''
      subst h''
      exact ⟨hcomp, Or.inl rfl⟩
    · rcases hsel : select_unassigned_variable cw d a with _ | var
      · rw [backtrack_none cw a d (by simpa using hcomp) hsel] at h
        exact absurd h (by simp)
      · rw [backtrack_step cw a d var (by simpa using hcomp) hsel] at h
        have hvar := select_mem cw d a var hsel
        have H := tryValues_sound cw var a
          (fun a' d' m' hlt h' =>
            ihn (UCount cw a') (hUa ▸ hlt) a' d' m' rfl h')
          hvar (order_domain_values cw d var a) d m h
        exact ⟨H.1, Or.inr H.2⟩

/-- Claim C1: whenever backtrack started from the empty assignment — in
particular whenever solve — returns an assignment rather than the
no-solution marker None, that assignment is complete (every slot assigned)
and consistent (all overlap characters agree, lengths match, words pairwise
distinct). -/
theorem claim_solution_validity (cw : Crossword) (d : Domains)
    (m m₂ : Assignment) (h1 : (backtrack cw [] d).1 = some m)
    (h2 : (solve cw).1 = some m₂) :
    assignment_complete cw m = true ∧ consistent cw m = true
    ∧ assignment_complete cw m₂ = true ∧ consistent cw m₂ = true := by
  have hempty : consistent cw ([] : Assignment) = true := by
    simp [consistent]
  have H1 := backtrack_sound cw (UCount cw []) [] d m rfl h1
  have solveEq : solve cw = backtrack cw []
      ((ac3 cw (enforce_node_consistency cw (fun _ => cw.words))
        (allArcs cw)).2) := rfl
  rw [solveEq] at h2
  have H2 := backtrack_sound cw (UCount cw []) [] _ m₂ rfl h2
  refine ⟨H1.1, ?_, H2.1, ?_⟩
  · rcases H1.2 with rfl | hc
    · exact hempty
    · exact hc
  · rcases H2.2 with rfl | hc
    · exact hempty
    · exact hc

/-- Witness for C1 on the slotless puzzle, where both backtrack and solve
return the empty assignment. -/
theorem claim_solution_validity_witness :
    assignment_complete cwEmpty [] = true ∧ consistent cwEmpty [] = true := by
  have h1 : (backtrack cwEmpty [] dEmpty).1 = some [] := by
    rw [backtrack_done cwEmpty [] dEmpty (by decide)]
  have h2 : (solve cwEmpty).1 = some [] := by
    rw [show solve cwEmpty = backtrack cwEmpty []
      ((ac3 cwEmpty (enforce_node_consistency cwEmpty
        (fun _ => cwEmpty.words)) (allArcs cwEmpty)).2) from rfl]
    rw [backtrack_done cwEmpty [] _ (by decide)]
  have H := claim_solution_validity cwEmpty dEmpty [] [] h1 h2
  exact ⟨H.1, H.2.1⟩

/-- Claim C2 is violated by the code: the snapshot at lines 288-291 copies
references to the mutable domain sets, so the restore at lines 305-307
rebinds the same already-pruned objects and undoes nothing.  Concretely, on
the two crossing one-letter slots with domains X = a and Y = a, b,
backtrack tries X = a, the MAC propagation removes b from domain(Y), the
subtree fails (Y cannot take the duplicate a), the candidate is rejected —
and afterwards domain(Y) is still a instead of the pre-branch a, b. -/
theorem claim_domains_not_restored :
    (backtrack cwXY [] dC2).1 = none
    ∧ (backtrack cwXY [] dC2).2 vY = {(['a'] : Word)}
    ∧ dC2 vY = {(['a'] : Word), ['b']} := by
  have hord1 : order_domain_values cwXY dC2 vX [] = [['a']] := by
    simp only [order_domain_values,
      show dC2 vX = {(['a'] : Word)} from rfl, Finset.sort_singleton]
    decide
  have hac3 : ac3 cwXY dC2 ((neighbors cwXY vX).map (fun nb => (nb, vX))) =
      (true, (revise cwXY dC2 vY vX).2) := by
    rw [show (neighbors cwXY vX).map (fun nb => (nb, vX)) = [(vY, vX)]
      from rfl]
    rw [ac3_cons_change_cont cwXY dC2 vY vX [] (by decide) (by decide)]
    rw [show ([] : List (Var × Var)) ++
      ((neighbors cwXY vY).filter (fun z => decide (z ≠ vX))).map
        (fun z => (z, vY)) = [] from rfl]
    exact ac3_nil cwXY _
  have hord2 : order_domain_values cwXY ((revise cwXY dC2 vY vX).2) vY
      [(vX, ['a'])] = [['a']] := by
    simp only [order_domain_values,
      show (revise cwXY dC2 vY vX).2 vY = {(['a'] : Word)} from by decide,
      Finset.sort_singleton]
    decide
  have hres : backtrack cwXY [(vX, ['a'])] ((revise cwXY dC2 vY vX).2) =
      (none, (revise cwXY dC2 vY vX).2) := by
    rw [backtrack_step cwXY [(vX, ['a'])] _ vY (by decide) (by decide),
      hord2,
      tryValues_cons_incons cwXY vY ['a'] [] [(vX, ['a'])] _ (by decide),
      tryValues_nil]
  have hmain : backtrack cwXY [] dC2 =
      (none, (revise cwXY dC2 vY vX).2) := by
    rw [backtrack_step cwXY [] dC2 vX (by decide) (by decide), hord1,
      tryValues_cons_rec cwXY vX ['a'] [] [] dC2 (by decide)
        (by rw [hac3]), hac3]
    simp only [show dictInsert [] vX ['a'] = [(vX, ['a'])] from rfl]
    rw [hres]
    simp only [truthy, Bool.false_eq_true, if_false, List.isEmpty_nil]
    rw [tryValues_nil]
  refine ⟨?_, ?_, by decide⟩
  · rw [hmain]
  · rw [hmain]
    decide
